import Mathlib

/-!
Verification of the minesweeper-solve repository (a CLI Minesweeper game with a
rule-based AI agent) against its natural-language specification.

The development shallowly embeds the Python sources:
 * `common.py` / `minesweeper.py`: `neighbors`, `place_mines`, `compute_counts`,
   `handle_click` (BFS flood-fill) and the state transitions of `run_game_loop`;
 * `action_ai_agent.py`: `count_adjacent_flags` and `ai_get_action`.

The board is the fixed 9x9 grid with 12 mines of the source
(`board_size = 9`, `mines_count = 12` module constants).  A cell is a pair of
`Fin boardSize` coordinates, so in-bounds-ness is carried by the type.  The
`revealed` boolean grid is embedded as the `Finset` of its true cells, and the
Python `set` objects (`mines`, `flags`) as a `List Cell` (with a `Nodup`
hypothesis where it matters) and a `Finset Cell` respectively.  Randomness
(`random.sample`, `random.choice`) is embedded relationally: any value the
library call may return is quantified over, constrained exactly by the
documented contract of the call.
-/

set_option maxRecDepth 100000

namespace MinesweeperSolve

/-- Source `board_size = 9` (module constant in minesweeper.py). -/
def boardSize : ℕ := 9

/-- Source `mines_count = 12` (module constant in minesweeper.py). -/
def minesCount : ℕ := 12

/-- A board cell: `(row, col)` with both coordinates in `[0, boardSize)`. -/
abbrev Cell : Type := Fin boardSize × Fin boardSize

/-- The `(dr, dc)` offsets generated by the two nested loops of
`common.neighbors`, in source order (`dr` in `(-1,0,1)`, `dc` in `(-1,0,1)`,
skipping `(0,0)`). -/
def deltas : List (ℤ × ℤ) :=
  [(-1, -1), (-1, 0), (-1, 1), (0, -1), (0, 1), (1, -1), (1, 0), (1, 1)]

/-- Source `common.neighbors(board_size, r, c)`: all in-bounds cells
`(r+dr, c+dc)` for the offsets of `deltas`, in iteration order. -/
def neighbors (r c : Fin boardSize) : List Cell :=
  deltas.filterMap fun d =>
    if h : 0 ≤ (r : ℤ) + d.1 ∧ (r : ℤ) + d.1 < (boardSize : ℤ) ∧
           0 ≤ (c : ℤ) + d.2 ∧ (c : ℤ) + d.2 < (boardSize : ℤ) then
      some (⟨((r : ℤ) + d.1).toNat, by omega⟩, ⟨((c : ℤ) + d.2).toNat, by omega⟩)
    else none

/-- `neighbors` uncurried over a cell. -/
def nbrs (x : Cell) : List Cell := neighbors x.1 x.2

theorem nbrs_symm : ∀ x y : Cell, y ∈ nbrs x ↔ x ∈ nbrs y := by decide

theorem nbrs_nodup : ∀ x : Cell, (nbrs x).Nodup := by decide

theorem self_not_mem_nbrs : ∀ x : Cell, x ∉ nbrs x := by decide

theorem nbrs_length_le : ∀ x : Cell, (nbrs x).length ≤ 8 := by decide

/-- Source `compute_counts(mines)`: starting from the all-zero grid, every
mine increments the count of each of its in-bounds neighbors.  The grid is
embedded as a function `Cell → ℕ`; the Python `set` of mines is embedded as a
list (its iteration order is irrelevant to the result). -/
def computeCounts (mines : List Cell) : Cell → ℕ :=
  mines.foldl
    (fun counts m =>
      (nbrs m).foldl (fun cts n => fun c => if c = n then cts c + 1 else cts c) counts)
    (fun _ => 0)

theorem bump_foldl_apply (l : List Cell) :
    ∀ (g : Cell → ℕ) (c : Cell),
      (l.foldl (fun cts n => fun d => if d = n then cts d + 1 else cts d) g) c =
        g c + l.countP (fun n => decide (n = c)) := by
  induction l with
  | nil => intro g c; simp
  | cons n t ih =>
    intro g c
    simp only [List.foldl_cons, ih, List.countP_cons]
    by_cases h : c = n
    · subst h; simp; omega
    · have h2 : ¬ (n = c) := fun hnc => h hnc.symm
      simp [h, h2]

theorem count_nodup_eq (l : List Cell) (c : Cell) :
    l.Nodup → l.countP (fun n => decide (n = c)) = if c ∈ l then 1 else 0 := by
  induction l with
  | nil => intro _; simp
  | cons a t ih =>
    intro hnd
    rw [List.nodup_cons] at hnd
    rw [List.countP_cons, ih hnd.2]
    by_cases h : a = c
    · subst h
      have ha : a ∉ t := hnd.1
      simp [ha]
    · have hne : ¬ c = a := fun hc => h hc.symm
      simp [List.mem_cons, h, hne]

theorem computeCounts_eq_countP (mines : List Cell) (c : Cell) :
    computeCounts mines c = mines.countP (fun m => decide (c ∈ nbrs m)) := by
  have main : ∀ (l : List Cell) (g : Cell → ℕ),
      (l.foldl
        (fun counts m =>
          (nbrs m).foldl (fun cts n => fun d => if d = n then cts d + 1 else cts d) counts)
        g) c = g c + l.countP (fun m => decide (c ∈ nbrs m)) := by
    intro l
    induction l with
    | nil => intro g; simp
    | cons m t ih =>
      intro g
      simp only [List.foldl_cons, ih, List.countP_cons]
      rw [bump_foldl_apply, count_nodup_eq _ _ (nbrs_nodup m)]
      by_cases h : c ∈ nbrs m
      · simp [h]; omega
      · simp [h]
  simpa using main mines (fun _ => 0)

/-- The count of a cell is the number of mines among its in-bounds neighbors
(the exchange between "mines having `c` as a neighbor" and "neighbors of `c`
that are mines" uses the symmetry of the 8-neighbor relation). -/
theorem computeCounts_eq_filter_length (mines : List Cell) (hnd : mines.Nodup) (c : Cell) :
    computeCounts mines c = ((nbrs c).filter (fun n => decide (n ∈ mines))).length := by
  rw [computeCounts_eq_countP]
  have h1 : mines.countP (fun m => decide (c ∈ nbrs m)) =
      mines.countP (fun m => decide (m ∈ nbrs c)) := by
    apply List.countP_congr
    intro m hm
    simp [nbrs_symm]
  rw [h1, List.countP_eq_length_filter]
  have h2 : (mines.filter (fun m => decide (m ∈ nbrs c))).toFinset =
      ((nbrs c).filter (fun n => decide (n ∈ mines))).toFinset := by
    ext x
    simp [List.mem_filter, and_comm]
  have h3 : (mines.filter (fun m => decide (m ∈ nbrs c))).toFinset.card =
      (mines.filter (fun m => decide (m ∈ nbrs c))).length :=
    List.toFinset_card_of_nodup (hnd.filter _)
  have h4 : ((nbrs c).filter (fun n => decide (n ∈ mines))).toFinset.card =
      ((nbrs c).filter (fun n => decide (n ∈ mines))).length :=
    List.toFinset_card_of_nodup ((nbrs_nodup c).filter _)
  rw [← h3, h2, h4]

theorem computeCounts_le_eight (mines : List Cell) (hnd : mines.Nodup) (c : Cell) :
    computeCounts mines c ≤ 8 := by
  rw [computeCounts_eq_filter_length mines hnd c]
  calc ((nbrs c).filter (fun n => decide (n ∈ mines))).length ≤ (nbrs c).length :=
        List.length_filter_le _ _
    _ ≤ 8 := nbrs_length_le c

/-- If a cell has count zero, none of its neighbors is a mine. -/
theorem no_mine_neighbor_of_count_zero (mines : List Cell) (u v : Cell)
    (h0 : computeCounts mines u = 0) (hv : v ∈ nbrs u) : v ∉ mines := by
  intro hvm
  rw [computeCounts_eq_countP] at h0
  have : 0 < mines.countP (fun m => decide (u ∈ nbrs m)) := by
    rw [List.countP_pos_iff]
    exact ⟨v, hvm, by simp [(nbrs_symm u v).mp hv]⟩
  omega

instance : NeZero boardSize := ⟨by decide⟩

/-- Row-major list of all board cells, as generated by the comprehension
`[(r, c) for r in range(board_size) for c in range(board_size)]`. -/
def allCellsList : List Cell :=
  (List.finRange boardSize).flatMap fun r => (List.finRange boardSize).map fun c => (r, c)

/-- Source `place_mines`: `excluded = {(first_r, first_c)} | set(neighbors(...))`,
kept as a list (membership is all that is used). -/
def excludedList (first : Cell) : List Cell := first :: nbrs first

/-- Source `place_mines`: `all_positions`, the row-major candidate cells outside
the excluded safe zone. -/
def allPositions (first : Cell) : List Cell :=
  allCellsList.filter fun p => decide (p ∉ excludedList first)

/-- Contract of `random.sample(all_positions, mines_count)`: it returns
`mines_count` distinct elements of `all_positions` (and raises `ValueError`
only when `mines_count` exceeds the population size, which
`sample_pool_large_enough` rules out).  Any possible return value satisfies
this predicate, and the sampling is modelled by quantifying over it. -/
abbrev SampleSpec (first : Cell) (mines : List Cell) : Prop :=
  mines.Nodup ∧ mines.length = minesCount ∧ ∀ m ∈ mines, m ∈ allPositions first

theorem sample_pool_large_enough : ∀ first : Cell, minesCount ≤ (allPositions first).length := by
  decide

/-- Claim C5: for every first-click cell, the mine set returned by
`place_mines` has exactly `minesCount` elements and contains neither the
first-clicked cell nor any of its in-bounds neighbors (and the sample
population is always large enough, so `random.sample` cannot fail). -/
theorem c5_place_mines_safe_zone (first : Cell) (mines : List Cell) (h : SampleSpec first mines) :
    mines.length = minesCount ∧ (∀ m ∈ mines, m ≠ first ∧ m ∉ nbrs first) ∧
    minesCount ≤ (allPositions first).length := by
  refine ⟨h.2.1, ?_, sample_pool_large_enough first⟩
  intro m hm
  have h2 := h.2.2 m hm
  rw [allPositions, List.mem_filter] at h2
  have h3 : m ∉ excludedList first := by simpa using h2.2
  rw [excludedList, List.mem_cons] at h3
  push_neg at h3
  exact h3

/-- A concrete 12-mine placement used by the witnesses: it walls the corner
cell `(0,0)` off with the five mines around `(1,1)`-block and keeps the other
seven far away. -/
def minesW : List Cell :=
  [(0, 2), (1, 2), (2, 2), (2, 1), (2, 0), (8, 0), (8, 2), (8, 4), (8, 6), (8, 8), (6, 0), (6, 8)]

theorem c5_witness :
    SampleSpec ((4 : Fin boardSize), (4 : Fin boardSize)) minesW ∧
    (minesW.length = minesCount ∧
      (∀ m ∈ minesW, m ≠ ((4 : Fin boardSize), (4 : Fin boardSize)) ∧
        m ∉ nbrs ((4 : Fin boardSize), (4 : Fin boardSize))) ∧
      minesCount ≤ (allPositions ((4 : Fin boardSize), (4 : Fin boardSize))).length) :=
  ⟨by decide, c5_place_mines_safe_zone _ minesW (by decide)⟩

/-- Claim C6: for every duplicate-free mine list, `compute_counts` assigns to
every cell the number of its in-bounds neighbors that are mines, and every
entry lies in `[0, 8]` (the lower bound is inherent to `ℕ`). -/
theorem c6_compute_counts_correct (mines : List Cell) (hnd : mines.Nodup) (c : Cell) :
    computeCounts mines c = ((nbrs c).filter (fun n => decide (n ∈ mines))).length ∧
    computeCounts mines c ≤ 8 :=
  ⟨computeCounts_eq_filter_length mines hnd c, computeCounts_le_eight mines hnd c⟩

theorem c6_witness :
    minesW.Nodup ∧
    (computeCounts minesW ((1 : Fin boardSize), (1 : Fin boardSize)) =
      ((nbrs ((1 : Fin boardSize), (1 : Fin boardSize))).filter
        (fun n => decide (n ∈ minesW))).length ∧
      computeCounts minesW ((1 : Fin boardSize), (1 : Fin boardSize)) ≤ 8) :=
  ⟨by decide, c6_compute_counts_correct minesW (by decide) _⟩

/-- The BFS loop of `handle_click`, with explicit fuel (the loop terminates;
`bfsAux_spec` proves the canonical fuel `bfsFuel` always suffices, which is the
termination claim).  State per iteration: the work queue (`deque`, popped at
the front, appended at the back), the revealed set, and two ghost logs
recording every cell that gets revealed and every cell that gets enqueued.
A popped cell already revealed is skipped; otherwise it is revealed, and when
its count is zero its not-yet-revealed, unflagged neighbors are enqueued. -/
def bfsAux (cnt : Cell → ℕ) (flg : Finset Cell) :
    ℕ → List Cell → Finset Cell → List Cell → List Cell →
    Option (Finset Cell × List Cell × List Cell)
  | _, [], rev, rlog, elog => some (rev, rlog, elog)
  | 0, _ :: _, _, _, _ => none
  | fuel + 1, x :: q, rev, rlog, elog =>
    if x ∈ rev then bfsAux cnt flg fuel q rev rlog elog
    else if cnt x = 0 then
      bfsAux cnt flg fuel
        (q ++ (nbrs x).filter (fun y => decide (y ∉ insert x rev ∧ y ∉ flg)))
        (insert x rev) (rlog ++ [x])
        (elog ++ (nbrs x).filter (fun y => decide (y ∉ insert x rev ∧ y ∉ flg)))
    else
      bfsAux cnt flg fuel q (insert x rev) (rlog ++ [x]) elog

/-- Canonical fuel bound: queue length plus 9 fuel units per not-yet-revealed
cell (a reveal step consumes one unrevealed cell and enqueues at most 8). -/
def bfsFuel (q : List Cell) (rev : Finset Cell) : ℕ :=
  q.length + 9 * (boardSize * boardSize - rev.card)

/-- Source `handle_click(r, c, counts, mines, revealed, flags)`.  Returns the
safety flag of the source (`True` = safe, `False` = mine hit), the updated
revealed set, and the two ghost logs of the BFS.  A flagged start is a no-op
returning safe; an unflagged mine returns unsafe without touching the state;
otherwise the BFS runs with the start cell as initial queue (and initial
enqueue log). -/
def handleClick (start : Cell) (cnt : Cell → ℕ) (mines : List Cell)
    (rev flg : Finset Cell) : Option (Bool × Finset Cell × List Cell × List Cell) :=
  if start ∈ flg then some (true, rev, [], [])
  else if start ∈ mines then some (false, rev, [], [])
  else (bfsAux cnt flg (bfsFuel [start] rev) [start] rev [] [start]).map
    fun p => (true, p.1, p.2.1, p.2.2)

theorem card_cell : Fintype.card Cell = boardSize * boardSize := by
  simp [Fintype.card_prod]

theorem card_lt_of_not_mem {x : Cell} {rev : Finset Cell} (h : x ∉ rev) :
    rev.card < boardSize * boardSize := by
  have h1 : rev ≠ Finset.univ := fun he => h (he ▸ Finset.mem_univ x)
  have h2 : rev.card < Finset.univ.card :=
    Finset.card_lt_card (Finset.ssubset_univ_iff.mpr h1)
  simpa [Finset.card_univ, card_cell] using h2

/-- `Reach cnt flg rev a u`: there is a path `a = v₀, …, vₖ = u` in which every
cell is neither revealed (in `rev`) nor flagged, every non-terminal cell has
count zero, and consecutive cells are 8-neighbors.  This is exactly the set of
cells the BFS of `handle_click` reveals when started on `a` (see
`bfsAux_spec`): already-revealed cells, like flagged cells, block the
flood-fill. -/
inductive Reach (cnt : Cell → ℕ) (flg : Finset Cell) (rev : Finset Cell) : Cell → Cell → Prop
  | refl (a : Cell) (ha : a ∉ rev) (haf : a ∉ flg) : Reach cnt flg rev a a
  | step {a u v : Cell} (h : Reach cnt flg rev a u) (h0 : cnt u = 0) (hv : v ∈ nbrs u)
      (hvr : v ∉ rev) (hvf : v ∉ flg) : Reach cnt flg rev a v

theorem Reach.src_not_rev {cnt : Cell → ℕ} {flg rev : Finset Cell} {a u : Cell}
    (h : Reach cnt flg rev a u) : a ∉ rev ∧ a ∉ flg := by
  induction h with
  | refl ha haf => exact ⟨ha, haf⟩
  | step h h0 hv hvr hvf ih => exact ih

theorem Reach.tgt_not_rev {cnt : Cell → ℕ} {flg rev : Finset Cell} {a u : Cell}
    (h : Reach cnt flg rev a u) : u ∉ rev ∧ u ∉ flg := by
  cases h with
  | refl ha haf => exact ⟨ha, haf⟩
  | step h h0 hv hvr hvf => exact ⟨hvr, hvf⟩

theorem Reach.mono {cnt : Cell → ℕ} {flg rev rev2 : Finset Cell} {a u : Cell}
    (hsub : rev ⊆ rev2) (h : Reach cnt flg rev2 a u) : Reach cnt flg rev a u := by
  induction h with
  | refl ha haf => exact Reach.refl _ (fun hm => ha (hsub hm)) haf
  | step h h0 hv hvr hvf ih => exact Reach.step ih h0 hv (fun hm => hvr (hsub hm)) hvf

theorem Reach.trans {cnt : Cell → ℕ} {flg rev : Finset Cell} {a b u : Cell}
    (hab : Reach cnt flg rev a b) (hbu : Reach cnt flg rev b u) :
    Reach cnt flg rev a u := by
  induction hbu with
  | refl hb hbf => exact hab
  | step h h0 hv hvr hvf ih => exact Reach.step ih h0 hv hvr hvf

theorem Reach.tgt_shape {cnt : Cell → ℕ} {flg rev : Finset Cell} {a u : Cell}
    (h : Reach cnt flg rev a u) : u = a ∨ ∃ w, cnt w = 0 ∧ u ∈ nbrs w := by
  cases h with
  | refl ha haf => exact Or.inl rfl
  | @step w v h h0 hv hvr hvf => exact Or.inr ⟨w, h0, hv⟩

/-- Lifting reachability across one revealed cell `x` with count zero: any path
avoiding `rev` either ends at `x`, avoids `x` entirely, or can be restarted at
one of the cells the BFS enqueues when revealing `x`. -/
theorem reach_insert_of_zero {cnt : Cell → ℕ} {flg rev : Finset Cell} {x : Cell}
    (hx0 : cnt x = 0) {s u : Cell} (h : Reach cnt flg rev s u) :
    u = x ∨ Reach cnt flg (insert x rev) s u ∨
      ∃ n ∈ (nbrs x).filter (fun y => decide (y ∉ insert x rev ∧ y ∉ flg)),
        Reach cnt flg (insert x rev) n u := by
  induction h with
  | refl ha haf =>
    by_cases hax : s = x
    · exact Or.inl hax
    · exact Or.inr (Or.inl (Reach.refl s (by simp [Finset.mem_insert, hax, ha]) haf))
  | @step w v h h0 hv hvr hvf ih =>
    by_cases hvx : v = x
    · exact Or.inl hvx
    · have hvr2 : v ∉ insert x rev := by simp [Finset.mem_insert, hvx, hvr]
      rcases ih with rfl | hr | ⟨n, hn, hr⟩
      · refine Or.inr (Or.inr ⟨v, ?_, Reach.refl v hvr2 hvf⟩)
        rw [List.mem_filter]
        exact ⟨hv, by simp [hvr2, hvf]⟩
      · exact Or.inr (Or.inl (Reach.step hr h0 hv hvr2 hvf))
      · exact Or.inr (Or.inr ⟨n, hn, Reach.step hr h0 hv hvr2 hvf⟩)

/-- Same lifting for a revealed cell with nonzero count: no path continues
through it. -/
theorem reach_insert_of_nonzero {cnt : Cell → ℕ} {flg rev : Finset Cell} {x : Cell}
    (hx0 : cnt x ≠ 0) {s u : Cell} (h : Reach cnt flg rev s u) :
    u = x ∨ Reach cnt flg (insert x rev) s u := by
  induction h with
  | refl ha haf =>
    by_cases hax : s = x
    · exact Or.inl hax
    · exact Or.inr (Reach.refl s (by simp [Finset.mem_insert, hax, ha]) haf)
  | @step w v h h0 hv hvr hvf ih =>
    by_cases hvx : v = x
    · exact Or.inl hvx
    · have hvr2 : v ∉ insert x rev := by simp [Finset.mem_insert, hvx, hvr]
      rcases ih with rfl | hr
      · exact absurd h0 hx0
      · exact Or.inr (Reach.step hr h0 hv hvr2 hvf)

/-- A path started on an enqueued neighbor of `x` extends to a path started
on `x` itself. -/
theorem reach_cons_of_enqueued {cnt : Cell → ℕ} {flg rev : Finset Cell} {x n u : Cell}
    (hx : x ∉ rev) (hxf : x ∉ flg) (hx0 : cnt x = 0)
    (hn : n ∈ (nbrs x).filter (fun y => decide (y ∉ insert x rev ∧ y ∉ flg)))
    (h : Reach cnt flg rev n u) : Reach cnt flg rev x u := by
  rw [List.mem_filter] at hn
  have hprops : n ∉ insert x rev ∧ n ∉ flg := by simpa using hn.2
  have hnr : n ∉ rev := fun hm => hprops.1 (Finset.mem_insert_of_mem hm)
  exact (Reach.step (Reach.refl x hx hxf) hx0 hn.1 hnr hprops.2).trans h

theorem board_sq : boardSize * boardSize = 81 := rfl

/-- Master lemma about the BFS of `handle_click`: with the canonical fuel the
loop terminates, and the final revealed set is exactly the initial one plus
the cells `Reach`-able from some queue entry. -/
theorem bfsAux_spec (cnt : Cell → ℕ) (flg : Finset Cell) :
    ∀ (fuel : ℕ) (q : List Cell) (rev : Finset Cell) (rlog elog : List Cell),
      bfsFuel q rev ≤ fuel → (∀ s ∈ q, s ∉ flg) →
      ∃ rev2 rlog2 elog2,
        bfsAux cnt flg fuel q rev rlog elog = some (rev2, rlog2, elog2) ∧
        ∀ u : Cell, u ∈ rev2 ↔ u ∈ rev ∨ ∃ s ∈ q, Reach cnt flg rev s u := by
  intro fuel
  induction fuel with
  | zero =>
    intro q rev rlog elog hfuel hflags
    have hq : q = [] := by
      cases q with
      | nil => rfl
      | cons a t =>
        exfalso
        simp only [bfsFuel, List.length_cons] at hfuel
        omega
    subst hq
    exact ⟨rev, rlog, elog, by simp [bfsAux], by simp⟩
  | succ fuel ih =>
    intro q rev rlog elog hfuel hflags
    cases q with
    | nil => exact ⟨rev, rlog, elog, by simp [bfsAux], by simp⟩
    | cons x q =>
      by_cases hxr : x ∈ rev
      · -- popped cell already revealed: skipped
        have hfuel2 : bfsFuel q rev ≤ fuel := by
          simp only [bfsFuel, List.length_cons] at hfuel ⊢
          omega
        obtain ⟨rev2, rlog2, elog2, heq, hiff⟩ :=
          ih q rev rlog elog hfuel2 (fun s hs => hflags s (List.mem_cons_of_mem _ hs))
        refine ⟨rev2, rlog2, elog2, by simpa [bfsAux, hxr] using heq, ?_⟩
        intro u
        rw [hiff u]
        constructor
        · rintro (h | ⟨s, hs, hr⟩)
          · exact Or.inl h
          · exact Or.inr ⟨s, List.mem_cons_of_mem _ hs, hr⟩
        · rintro (h | ⟨s, hs, hr⟩)
          · exact Or.inl h
          · rcases List.mem_cons.mp hs with rfl | hsq
            · exact absurd hr.src_not_rev.1 (by simp [hxr])
            · exact Or.inr ⟨s, hsq, hr⟩
      · have hxf : x ∉ flg := hflags x (List.mem_cons_self _ _)
        have hcard : rev.card < boardSize * boardSize := card_lt_of_not_mem hxr
        by_cases hx0 : cnt x = 0
        · -- reveal x and enqueue its fresh unflagged neighbors
          have hnslen :
              ((nbrs x).filter (fun y => decide (y ∉ insert x rev ∧ y ∉ flg))).length ≤ 8 :=
            le_trans (List.length_filter_le _ _) (nbrs_length_le x)
          have hfuel2 : bfsFuel
              (q ++ (nbrs x).filter (fun y => decide (y ∉ insert x rev ∧ y ∉ flg)))
              (insert x rev) ≤ fuel := by
            simp only [bfsFuel, List.length_append, List.length_cons,
              Finset.card_insert_of_not_mem hxr, board_sq] at hfuel hnslen ⊢
            rw [board_sq] at hcard
            omega
          have hflags2 : ∀ s ∈ q ++ (nbrs x).filter
              (fun y => decide (y ∉ insert x rev ∧ y ∉ flg)), s ∉ flg := by
            intro s hs
            rcases List.mem_append.mp hs with hsq | hsn
            · exact hflags s (List.mem_cons_of_mem _ hsq)
            · rw [List.mem_filter] at hsn
              exact (by simpa using hsn.2 : s ∉ insert x rev ∧ s ∉ flg).2
          obtain ⟨rev2, rlog2, elog2, heq, hiff⟩ :=
            ih (q ++ (nbrs x).filter (fun y => decide (y ∉ insert x rev ∧ y ∉ flg)))
              (insert x rev) (rlog ++ [x])
              (elog ++ (nbrs x).filter (fun y => decide (y ∉ insert x rev ∧ y ∉ flg)))
              hfuel2 hflags2
          refine ⟨rev2, rlog2, elog2, by simpa [bfsAux, hxr, hx0] using heq, ?_⟩
          intro u
          rw [hiff u]
          constructor
          · rintro (hu | ⟨s, hs, hr⟩)
            · rcases Finset.mem_insert.mp hu with rfl | hu2
              · exact Or.inr ⟨_, List.mem_cons_self _ _, Reach.refl _ hxr hxf⟩
              · exact Or.inl hu2
            · have hru : Reach cnt flg rev s u := hr.mono (Finset.subset_insert _ _)
              rcases List.mem_append.mp hs with hsq | hsn
              · exact Or.inr ⟨s, List.mem_cons_of_mem _ hsq, hru⟩
              · exact Or.inr ⟨x, List.mem_cons_self _ _,
                  reach_cons_of_enqueued hxr hxf hx0 hsn hru⟩
          · rintro (hu | ⟨s, hs, hr⟩)
            · exact Or.inl (Finset.mem_insert_of_mem hu)
            · rcases reach_insert_of_zero hx0 hr with rfl | hr2 | ⟨n, hn, hr2⟩
              · exact Or.inl (Finset.mem_insert_self _ _)
              · rcases List.mem_cons.mp hs with rfl | hsq
                · exact absurd hr2.src_not_rev.1 (by simp)
                · exact Or.inr ⟨s, List.mem_append_left _ hsq, hr2⟩
              · exact Or.inr ⟨n, List.mem_append_right _ hn, hr2⟩
        · -- reveal x, nonzero count: nothing enqueued
          have hfuel2 : bfsFuel q (insert x rev) ≤ fuel := by
            simp only [bfsFuel, List.length_cons,
              Finset.card_insert_of_not_mem hxr, board_sq] at hfuel ⊢
            rw [board_sq] at hcard
            omega
          obtain ⟨rev2, rlog2, elog2, heq, hiff⟩ :=
            ih q (insert x rev) (rlog ++ [x]) elog hfuel2
              (fun s hs => hflags s (List.mem_cons_of_mem _ hs))
          refine ⟨rev2, rlog2, elog2, by simpa [bfsAux, hxr, hx0] using heq, ?_⟩
          intro u
          rw [hiff u]
          constructor
          · rintro (hu | ⟨s, hs, hr⟩)
            · rcases Finset.mem_insert.mp hu with rfl | hu2
              · exact Or.inr ⟨_, List.mem_cons_self _ _, Reach.refl _ hxr hxf⟩
              · exact Or.inl hu2
            · exact Or.inr ⟨s, List.mem_cons_of_mem _ hs,
                hr.mono (Finset.subset_insert _ _)⟩
          · rintro (hu | ⟨s, hs, hr⟩)
            · exact Or.inl (Finset.mem_insert_of_mem hu)
            · rcases reach_insert_of_nonzero hx0 hr with rfl | hr2
              · exact Or.inl (Finset.mem_insert_self _ _)
              · rcases List.mem_cons.mp hs with rfl | hsq
                · exact absurd hr2.src_not_rev.1 (by simp)
                · exact Or.inr ⟨s, hsq, hr2⟩

/-- `handle_click` on a non-flagged, non-mine start returns safe, and the
revealed set afterwards is exactly the original revealed set plus the
`Reach`-able cells from `start`. -/
theorem handleClick_reveal_spec (start : Cell) (cnt : Cell → ℕ) (mines : List Cell)
    (rev flg : Finset Cell) (hf : start ∉ flg) (hm : start ∉ mines) :
    ∃ rev2 rlog elog,
      handleClick start cnt mines rev flg = some (true, rev2, rlog, elog) ∧
      ∀ u : Cell, u ∈ rev2 ↔ u ∈ rev ∨ Reach cnt flg rev start u := by
  obtain ⟨rev2, rlog2, elog2, heq, hiff⟩ :=
    bfsAux_spec cnt flg (bfsFuel [start] rev) [start] rev [] [start] le_rfl
      (by intro s hs; rw [List.mem_singleton] at hs; subst hs; exact hf)
  refine ⟨rev2, rlog2, elog2, ?_, ?_⟩
  · unfold handleClick
    rw [if_neg hf, if_neg hm, heq]
    rfl
  · intro u
    rw [hiff u]
    simp

/-- Claim C1 (amended): for a non-flagged, non-mine start cell, `handle_click`
returns safe, and the revealed set afterwards is exactly the original revealed
set plus the cells reachable from `start` along paths of unrevealed, unflagged
cells whose non-terminal cells all have count zero (`Reach`).  This is the
spec's flood-fill region once already-revealed cells are also treated as
barriers: the zero-region is the reachable zero-count cells, its unrevealed
unflagged numbered border is the terminal cells of nonzero count, and `start`
itself is the reflexive path.  Flagged cells are never revealed. -/
theorem c1_flood_fill_characterization (start : Cell) (cnt : Cell → ℕ) (mines : List Cell)
    (rev flg : Finset Cell) (hf : start ∉ flg) (hm : start ∉ mines) :
    ∃ rev2 rlog elog,
      handleClick start cnt mines rev flg = some (true, rev2, rlog, elog) ∧
      ∀ u : Cell, u ∈ rev2 ↔ u ∈ rev ∨ Reach cnt flg rev start u :=
  handleClick_reveal_spec start cnt mines rev flg hf hm

theorem c1_witness :
    ((0, 0) : Cell) ∉ (∅ : Finset Cell) ∧ ((0, 0) : Cell) ∉ minesW ∧
    (∃ rev2 rlog elog,
      handleClick ((0, 0) : Cell) (computeCounts minesW) minesW ∅ ∅ =
        some (true, rev2, rlog, elog) ∧
      ∀ u : Cell, u ∈ rev2 ↔ u ∈ (∅ : Finset Cell) ∨
        Reach (computeCounts minesW) ∅ ∅ ((0, 0) : Cell) u) :=
  ⟨by decide, by decide,
    c1_flood_fill_characterization _ _ _ _ _ (by decide) (by decide)⟩

/-- The zero-region reachability literally asserted by the flood-fill sentence
of the specification: paths through zero-count cells with only flagged cells
acting as barriers (already-revealed cells are NOT barriers here).  Used to
state the counterexample to claim C1 as written. -/
inductive SpecZeroReach (cnt : Cell → ℕ) (flg : Finset Cell) : Cell → Cell → Prop
  | refl (a : Cell) (h0 : cnt a = 0) (haf : a ∉ flg) : SpecZeroReach cnt flg a a
  | step {a u v : Cell} (h : SpecZeroReach cnt flg a u) (hv : v ∈ nbrs u) (h0 : cnt v = 0)
      (hvf : v ∉ flg) : SpecZeroReach cnt flg a v

/-- Mines used by the C1 counterexample: all of row 2 plus `(6,7) (6,8) (7,6)`.
Row 0 is then a single connected zero-count region, and the first click on
`(8,8)` (whose safe zone excludes no mine) reveals only the four cells of the
walled-in bottom-right corner. -/
def c1mines : List Cell :=
  [(2, 0), (2, 1), (2, 2), (2, 3), (2, 4), (2, 5), (2, 6), (2, 7), (2, 8),
   (6, 7), (6, 8), (7, 6)]

def c1cnt : Cell → ℕ := computeCounts c1mines

/-- Revealed set after the initial first click on `(8,8)` (mines are placed
excluding the `(8,8)` safe zone, so this is a legal game opening). -/
def c1rev0 : Finset Cell :=
  match handleClick ((8, 8) : Cell) c1cnt c1mines ∅ ∅ with
  | some (_, r, _, _) => r
  | none => ∅

/-- Flags `(0,2)` and `(0,6)`, placed by two legal flag actions on unrevealed
cells after the first click. -/
def c1flags : Finset Cell := {((0, 2) : Cell), ((0, 6) : Cell)}

/-- Revealed set after then clicking `(0,4)`: the flags cut the row-0 zero
region, so only `(0,3) (0,4) (0,5)` and their numbered border get revealed. -/
def c1rev : Finset Cell :=
  match handleClick ((0, 4) : Cell) c1cnt c1mines c1rev0 c1flags with
  | some (_, r, _, _) => r
  | none => ∅

/-- Revealed set after unflagging both flags (legal toggles) and clicking
`(0,2)`. -/
def c1final : Finset Cell :=
  match handleClick ((0, 2) : Cell) c1cnt c1mines c1rev ∅ with
  | some (_, r, _, _) => r
  | none => ∅

set_option maxHeartbeats 1000000 in
/-- Counterexample to claim C1 as stated: in the reachable state `c1rev` (no
flags), the cell `(0,7)` lies in the connected zero-count region of the
unflagged start `(0,2)` — so the claim predicts it becomes revealed — but
`handle_click` leaves it unrevealed, because the already-revealed zero cells
`(0,3) (0,4) (0,5)` block the BFS (the enqueue test skips revealed cells).
The auxiliary conjuncts certify that the intermediate actions were legal and
that the state is reachable. -/
theorem c1_counterexample :
    (handleClick ((0, 2) : Cell) c1cnt c1mines c1rev ∅).isSome = true ∧
    SpecZeroReach c1cnt ∅ ((0, 2) : Cell) ((0, 7) : Cell) ∧
    ((0, 2) : Cell) ∉ (∅ : Finset Cell) ∧ ((0, 2) : Cell) ∉ c1mines ∧
    ((0, 7) : Cell) ∉ c1final ∧ ((0, 7) : Cell) ∉ c1rev ∧
    ((0, 2) : Cell) ∉ c1rev0 ∧ ((0, 6) : Cell) ∉ c1rev0 ∧ ((0, 4) : Cell) ∉ c1rev0 := by
  refine ⟨by decide, ?_, by decide, by decide, by decide, by decide, by decide,
    by decide, by decide⟩
  have h2 : SpecZeroReach c1cnt ∅ ((0, 2) : Cell) ((0, 2) : Cell) :=
    SpecZeroReach.refl _ (by decide) (by decide)
  have h3 : SpecZeroReach c1cnt ∅ ((0, 2) : Cell) ((0, 3) : Cell) :=
    h2.step (by decide) (by decide) (by decide)
  have h4 : SpecZeroReach c1cnt ∅ ((0, 2) : Cell) ((0, 4) : Cell) :=
    h3.step (by decide) (by decide) (by decide)
  have h5 : SpecZeroReach c1cnt ∅ ((0, 2) : Cell) ((0, 5) : Cell) :=
    h4.step (by decide) (by decide) (by decide)
  have h6 : SpecZeroReach c1cnt ∅ ((0, 2) : Cell) ((0, 6) : Cell) :=
    h5.step (by decide) (by decide) (by decide)
  exact h6.step (by decide) (by decide) (by decide)

/-- Each BFS run reveals every cell at most once: the reveal log never repeats
a cell, because a cell is logged only when it transitions into the revealed
set and popped cells already revealed are skipped. -/
theorem bfsAux_rlog_nodup (cnt : Cell → ℕ) (flg : Finset Cell) :
    ∀ (fuel : ℕ) (q : List Cell) (rev : Finset Cell) (rlog elog : List Cell)
      (rev2 : Finset Cell) (rlog2 elog2 : List Cell),
      bfsAux cnt flg fuel q rev rlog elog = some (rev2, rlog2, elog2) →
      rlog.Nodup → (∀ c ∈ rlog, c ∈ rev) →
      rlog2.Nodup ∧ ∀ c ∈ rlog2, c ∈ rev2 := by
  intro fuel
  induction fuel with
  | zero =>
    intro q rev rlog elog rev2 rlog2 elog2 heq hnd hsub
    cases q with
    | nil =>
      simp only [bfsAux, Option.some.injEq, Prod.mk.injEq] at heq
      obtain ⟨h1, h2, h3⟩ := heq
      subst h1; subst h2; subst h3
      exact ⟨hnd, hsub⟩
    | cons x q => simp [bfsAux] at heq
  | succ fuel ih =>
    intro q rev rlog elog rev2 rlog2 elog2 heq hnd hsub
    cases q with
    | nil =>
      simp only [bfsAux, Option.some.injEq, Prod.mk.injEq] at heq
      obtain ⟨h1, h2, h3⟩ := heq
      subst h1; subst h2; subst h3
      exact ⟨hnd, hsub⟩
    | cons x q =>
      by_cases hxr : x ∈ rev
      · rw [show bfsAux cnt flg (fuel + 1) (x :: q) rev rlog elog =
              bfsAux cnt flg fuel q rev rlog elog by simp [bfsAux, hxr]] at heq
        exact ih q rev rlog elog rev2 rlog2 elog2 heq hnd hsub
      · have hxl : x ∉ rlog := fun hm => hxr (hsub x hm)
        have hnd2 : (rlog ++ [x]).Nodup := by
          rw [List.nodup_append]
          exact ⟨hnd, List.nodup_singleton x, by simpa [List.disjoint_singleton] using hxl⟩
        have hsub2 : ∀ c ∈ rlog ++ [x], c ∈ insert x rev := by
          intro c hc
          rcases List.mem_append.mp hc with hc1 | hc2
          · exact Finset.mem_insert_of_mem (hsub c hc1)
          · rw [List.mem_singleton] at hc2
            subst hc2
            exact Finset.mem_insert_self _ _
        by_cases hx0 : cnt x = 0
        · rw [show bfsAux cnt flg (fuel + 1) (x :: q) rev rlog elog =
                bfsAux cnt flg fuel
                  (q ++ (nbrs x).filter (fun y => decide (y ∉ insert x rev ∧ y ∉ flg)))
                  (insert x rev) (rlog ++ [x])
                  (elog ++ (nbrs x).filter (fun y => decide (y ∉ insert x rev ∧ y ∉ flg)))
              by simp [bfsAux, hxr, hx0]] at heq
          exact ih _ _ _ _ rev2 rlog2 elog2 heq hnd2 hsub2
        · rw [show bfsAux cnt flg (fuel + 1) (x :: q) rev rlog elog =
                bfsAux cnt flg fuel q (insert x rev) (rlog ++ [x]) elog
              by simp [bfsAux, hxr, hx0]] at heq
          exact ih _ _ _ _ rev2 rlog2 elog2 heq hnd2 hsub2

theorem handleClick_isSome (start : Cell) (cnt : Cell → ℕ) (mines : List Cell)
    (rev flg : Finset Cell) : (handleClick start cnt mines rev flg).isSome = true := by
  unfold handleClick
  by_cases hf : start ∈ flg
  · simp [hf]
  · by_cases hm : start ∈ mines
    · simp [hf, hm]
    · obtain ⟨rev2, rlog2, elog2, heq, _⟩ :=
        bfsAux_spec cnt flg (bfsFuel [start] rev) [start] rev [] [start] le_rfl
          (by intro s hs; rw [List.mem_singleton] at hs; subst hs; exact hf)
      simp [hf, hm, heq]

/-- Claim C4 (amended): for every board state and every start cell, the
flood-fill in `handle_click` terminates, and within a single call each cell is
*revealed* at most once — the revealed check gates re-expansion.  (A cell can
be *enqueued* more than once before its first pop, as witnessed further
below on a concrete state.) -/
theorem c4_flood_fill_terminates (start : Cell) (cnt : Cell → ℕ) (mines : List Cell)
    (rev flg : Finset Cell) :
    (handleClick start cnt mines rev flg).isSome = true ∧
    ∀ b (rev2 : Finset Cell) (rlog elog : List Cell),
      handleClick start cnt mines rev flg = some (b, rev2, rlog, elog) → rlog.Nodup := by
  refine ⟨handleClick_isSome start cnt mines rev flg, ?_⟩
  intro b rev2 rlog elog h
  unfold handleClick at h
  by_cases hf : start ∈ flg
  · rw [if_pos hf] at h
    simp only [Option.some.injEq, Prod.mk.injEq] at h
    rw [← h.2.2.1]
    exact List.nodup_nil
  · rw [if_neg hf] at h
    by_cases hm : start ∈ mines
    · rw [if_pos hm] at h
      simp only [Option.some.injEq, Prod.mk.injEq] at h
      rw [← h.2.2.1]
      exact List.nodup_nil
    · rw [if_neg hm, Option.map_eq_some'] at h
      obtain ⟨⟨pr, pl, pe⟩, hp, hval⟩ := h
      simp only [Prod.mk.injEq] at hval
      have := bfsAux_rlog_nodup cnt flg (bfsFuel [start] rev) [start] rev [] [start]
        pr pl pe hp List.nodup_nil (by intro c hc; simp at hc)
      rw [← hval.2.2.1]
      exact this.1

/-- Mines for the C4 counterexample: all of row 5 plus three cells of row 8,
far away from the top-left corner. -/
def mines4 : List Cell :=
  [(5, 0), (5, 1), (5, 2), (5, 3), (5, 4), (5, 5), (5, 6), (5, 7), (5, 8),
   (8, 0), (8, 4), (8, 8)]

/-- A board state in which everything except the 2x2 zero-count corner block
`(0,0) (0,1) (1,0) (1,1)` and the mines is already revealed. -/
def rev4 : Finset Cell :=
  Finset.univ.filter (fun c =>
    c ∉ mines4 ∧ c ≠ ((0, 0) : Cell) ∧ c ≠ ((0, 1) : Cell) ∧
    c ≠ ((1, 0) : Cell) ∧ c ≠ ((1, 1) : Cell))

/-- The enqueue log of clicking `(0,0)` in that state. -/
def c4elog : List Cell :=
  match handleClick ((0, 0) : Cell) (computeCounts mines4) mines4 rev4 ∅ with
  | some (_, _, _, el) => el
  | none => []

/-- Counterexample to the "each cell is enqueued at most once" conjunct of
claim C4: clicking `(0,0)` enqueues `(1,1)` three times (once from each of its
zero-count neighbors `(0,0)`, `(0,1)`, `(1,0)`) before it is first popped —
the revealed check only prevents re-enqueueing after a cell is revealed, not
while it waits in the queue. -/
theorem c4_counterexample :
    (handleClick ((0, 0) : Cell) (computeCounts mines4) mines4 rev4 ∅).isSome = true ∧
    ¬ c4elog.Nodup ∧
    c4elog.countP (fun c => decide (c = ((1, 1) : Cell))) = 3 := by
  refine ⟨by decide, by decide, by decide⟩

/-- Claim C7: calling `handle_click` on an unflagged cell that is a mine
returns the mine-hit result (`False`) and leaves the revealed set completely
unchanged; the flag set is never written by `handle_click` at all (in the
embedding it is a read-only argument, mirroring the source where only the
game loop's flag action mutates `flags`). -/
theorem c7_mine_click_unchanged (start : Cell) (cnt : Cell → ℕ) (mines : List Cell)
    (rev flg : Finset Cell) (hf : start ∉ flg) (hm : start ∈ mines) :
    handleClick start cnt mines rev flg = some (false, rev, [], []) := by
  unfold handleClick
  rw [if_neg hf, if_pos hm]

theorem c7_witness :
    ((2, 0) : Cell) ∉ (∅ : Finset Cell) ∧ ((2, 0) : Cell) ∈ c1mines ∧
    handleClick ((2, 0) : Cell) c1cnt c1mines ∅ ∅ = some (false, ∅, [], []) :=
  ⟨by decide, by decide, c7_mine_click_unchanged _ _ _ _ _ (by decide) (by decide)⟩

/-- Reach-targets from a non-mine start are never mines, because non-terminal
path cells have count zero and a zero-count cell has no mine neighbor. -/
theorem reach_not_mine (mines : List Cell) (flg rev : Finset Cell) (a u : Cell)
    (ham : a ∉ mines) (h : Reach (computeCounts mines) flg rev a u) : u ∉ mines := by
  rcases h.tgt_shape with rfl | ⟨w, hw0, hw⟩
  · exact ham
  · exact no_mine_neighbor_of_count_zero mines w u hw0 hw

/-- The states reachable by the game dynamics of `run_game_loop` (minesweeper.py)
from the initial all-unrevealed, no-flags state: the setup click performed by
`main_interactive` / `main_ai_agent` (asserted safe), then any sequence of the
loop's actions: a click on a not-yet-revealed cell that does not hit a mine
(a mine hit ends the game with the state otherwise unchanged, and the loop
refuses clicks on revealed cells), and a flag toggle on a not-yet-revealed
cell (the loop refuses flagging revealed cells). -/
inductive ReachableState (mines : List Cell) (first : Cell) :
    Finset Cell → Finset Cell → Prop
  | init (rev : Finset Cell) (rlog elog : List Cell)
      (h : handleClick first (computeCounts mines) mines ∅ ∅ = some (true, rev, rlog, elog)) :
      ReachableState mines first rev ∅
  | clickStep (rev flg rev2 : Finset Cell) (rlog elog : List Cell) (t : Cell)
      (hs : ReachableState mines first rev flg) (ht : t ∉ rev)
      (h : handleClick t (computeCounts mines) mines rev flg = some (true, rev2, rlog, elog)) :
      ReachableState mines first rev2 flg
  | flagAdd (rev flg : Finset Cell) (t : Cell)
      (hs : ReachableState mines first rev flg) (ht : t ∉ rev) (htf : t ∉ flg) :
      ReachableState mines first rev (insert t flg)
  | flagRemove (rev flg : Finset Cell) (t : Cell)
      (hs : ReachableState mines first rev flg) (ht : t ∉ rev) (htf : t ∈ flg) :
      ReachableState mines first rev (flg.erase t)

/-- The cells revealed by a safe `handle_click` are the old ones plus
`Reach`-able cells; consequence used by the state invariants. -/
theorem handleClick_safe_cases (t : Cell) (cnt : Cell → ℕ) (mines : List Cell)
    (rev flg rev2 : Finset Cell) (rlog elog : List Cell)
    (h : handleClick t cnt mines rev flg = some (true, rev2, rlog, elog)) :
    rev2 = rev ∨ (t ∉ flg ∧ t ∉ mines ∧
      ∀ u : Cell, u ∈ rev2 ↔ u ∈ rev ∨ Reach cnt flg rev t u) := by
  by_cases htf : t ∈ flg
  · left
    unfold handleClick at h
    rw [if_pos htf] at h
    simp only [Option.some.injEq, Prod.mk.injEq] at h
    exact h.2.1.symm
  · by_cases htm : t ∈ mines
    · exfalso
      unfold handleClick at h
      rw [if_neg htf, if_pos htm] at h
      simp at h
    · right
      refine ⟨htf, htm, ?_⟩
      obtain ⟨rev3, rl3, el3, heq2, hiff⟩ :=
        handleClick_reveal_spec t cnt mines rev flg htf htm
      rw [heq2] at h
      simp only [Option.some.injEq, Prod.mk.injEq] at h
      rw [← h.2.1]
      exact hiff

/-- Invariant of all reachable states: a revealed cell is neither flagged nor
a mine. -/
theorem reachable_invariant (mines : List Cell) (first : Cell)
    (rev flg : Finset Cell) (h : ReachableState mines first rev flg) :
    ∀ c ∈ rev, c ∉ flg ∧ c ∉ mines := by
  induction h with
  | init rev rlog elog heq =>
    have hfm : first ∉ mines := by
      by_contra hm
      unfold handleClick at heq
      rw [if_neg (by simp : first ∉ (∅ : Finset Cell)), if_pos hm] at heq
      simp at heq
    rcases handleClick_safe_cases first (computeCounts mines) mines ∅ ∅ rev rlog elog heq with
      hrev | ⟨_, _, hiff⟩
    · subst hrev
      intro c hc
      simp at hc
    · intro c hc
      rcases (hiff c).mp hc with hc0 | hr
      · simp at hc0
      · exact ⟨hr.tgt_not_rev.2, reach_not_mine mines ∅ ∅ first c hfm hr⟩
  | clickStep rev flg rev2 rlog elog t hs ht heq ih =>
    rcases handleClick_safe_cases t (computeCounts mines) mines rev flg rev2 rlog elog heq with
      hrev | ⟨htf, htm, hiff⟩
    · subst hrev
      exact ih
    · intro c hc
      rcases (hiff c).mp hc with hc0 | hr
      · exact ih c hc0
      · exact ⟨hr.tgt_not_rev.2, reach_not_mine mines flg rev t c htm hr⟩
  | flagAdd rev flg t hs ht htf ih =>
    intro c hc
    refine ⟨?_, (ih c hc).2⟩
    rw [Finset.mem_insert]
    push_neg
    exact ⟨fun hct => ht (hct ▸ hc), (ih c hc).1⟩
  | flagRemove rev flg t hs ht htf ih =>
    intro c hc
    exact ⟨fun hce => (ih c hc).1 (Finset.mem_erase.mp hce).2, (ih c hc).2⟩

/-- Claim C8: in every state reachable by any sequence of click and
flag-toggle actions, no cell is simultaneously flagged and revealed
(flag-toggle refuses revealed cells; reveal never reveals a flagged cell —
a flagged start is a no-op returning safe and the flood-fill skips flagged
neighbors). -/
theorem c8_flag_reveal_exclusion (mines : List Cell) (first : Cell)
    (rev flg : Finset Cell) (h : ReachableState mines first rev flg) :
    ∀ c : Cell, ¬ (c ∈ rev ∧ c ∈ flg) :=
  fun c ⟨hc, hcf⟩ => (reachable_invariant mines first rev flg h c hc).1 hcf

/-- Bound on the number of revealed cells once mines are never revealed. -/
theorem card_le_of_no_mines (mines : List Cell) (rev : Finset Cell)
    (hnd : mines.Nodup) (hlen : mines.length = minesCount)
    (hno : ∀ c ∈ rev, c ∉ mines) :
    rev.card ≤ boardSize * boardSize - minesCount := by
  have hsub : rev ⊆ Finset.univ \ mines.toFinset := by
    intro c hc
    rw [Finset.mem_sdiff]
    exact ⟨Finset.mem_univ c, fun hm => hno c hc (List.mem_toFinset.mp hm)⟩
  have h1 : (Finset.univ \ mines.toFinset).card =
      Finset.univ.card - mines.toFinset.card :=
    Finset.card_sdiff (Finset.subset_univ _)
  have h2 : mines.toFinset.card = minesCount := by
    rw [List.toFinset_card_of_nodup hnd, hlen]
  calc rev.card ≤ (Finset.univ \ mines.toFinset).card := Finset.card_le_card hsub
    _ = boardSize * boardSize - minesCount := by
        rw [h1, h2, Finset.card_univ, card_cell]

/-- Claim C9: in every reachable state no mine is revealed — a direct mine
click returns before marking anything, and the flood-fill only enqueues
neighbors of zero-count cells, which have no mine neighbors — and therefore
the revealed count never exceeds `N² − M`. -/
theorem c9_mines_never_revealed (mines : List Cell) (first : Cell)
    (hnd : mines.Nodup) (hlen : mines.length = minesCount)
    (rev flg : Finset Cell) (h : ReachableState mines first rev flg) :
    (∀ c ∈ rev, c ∉ mines) ∧ rev.card ≤ boardSize * boardSize - minesCount := by
  have hno : ∀ c ∈ rev, c ∉ mines :=
    fun c hc => (reachable_invariant mines first rev flg h c hc).2
  exact ⟨hno, card_le_of_no_mines mines rev hnd hlen hno⟩

/-- Game outcomes of the loop state machine. -/
inductive Outcome
  | inProgress
  | won
  | lost
  | quitGame
deriving DecidableEq

/-- Source `run_game_loop` win test, performed at the top of each turn:
`revealed_count >= board_size * board_size - mines_count`. -/
def checkWin (rev : Finset Cell) : Bool :=
  decide (boardSize * boardSize - minesCount ≤ rev.card)

/-- The outcome assigned by the win check at the top of a turn. -/
def winCheck (rev : Finset Cell) : Outcome :=
  if checkWin rev then Outcome.won else Outcome.inProgress

/-- Claim C2: for every reachable game state, the loop's win check (which
tests `revealed-count ≥ N² − M`) declares the game won exactly when the
revealed count equals `N² − M` — the two agree because no reachable state
reveals more than `N² − M` cells. -/
theorem c2_win_iff_exact_count (mines : List Cell) (first : Cell)
    (hnd : mines.Nodup) (hlen : mines.length = minesCount)
    (rev flg : Finset Cell) (h : ReachableState mines first rev flg) :
    winCheck rev = Outcome.won ↔ rev.card = boardSize * boardSize - minesCount := by
  have hle : rev.card ≤ boardSize * boardSize - minesCount :=
    card_le_of_no_mines mines rev hnd hlen
      (fun c hc => (reachable_invariant mines first rev flg h c hc).2)
  constructor
  · intro hw
    by_contra hne
    have hlt : rev.card < boardSize * boardSize - minesCount :=
      lt_of_le_of_ne hle hne
    have hcw : checkWin rev = false := by
      unfold checkWin
      exact decide_eq_false (by omega)
    unfold winCheck at hw
    rw [hcw] at hw
    simp at hw
  · intro hc
    have hcw : checkWin rev = true := by
      unfold checkWin
      exact decide_eq_true (by omega)
    unfold winCheck
    rw [hcw]
    rfl

/-- The concrete reachable state used by the witnesses of C2, C8 and C9:
`minesW` with first click `(0,0)`, which reveals the walled-in 2x2 corner
`(0,0) (0,1) (1,0) (1,1)`. -/
def revW : Finset Cell :=
  match handleClick ((0, 0) : Cell) (computeCounts minesW) minesW ∅ ∅ with
  | some (_, r, _, _) => r
  | none => ∅

theorem reachableW : ReachableState minesW ((0, 0) : Cell) revW ∅ := by
  obtain ⟨rev2, rl, el, heq, _⟩ :=
    handleClick_reveal_spec ((0, 0) : Cell) (computeCounts minesW) minesW ∅ ∅
      (by decide) (by decide)
  have hw : rev2 = revW := by unfold revW; rw [heq]
  exact hw ▸ ReachableState.init rev2 rl el heq

theorem c2_witness :
    minesW.Nodup ∧ minesW.length = minesCount ∧
    (winCheck revW = Outcome.won ↔ revW.card = boardSize * boardSize - minesCount) :=
  ⟨by decide, by decide,
    c2_win_iff_exact_count minesW ((0, 0) : Cell) (by decide) (by decide) revW ∅ reachableW⟩

theorem c8_witness : ¬ (((0, 0) : Cell) ∈ revW ∧ ((0, 0) : Cell) ∈ (∅ : Finset Cell)) :=
  c8_flag_reveal_exclusion minesW ((0, 0) : Cell) revW ∅ reachableW ((0, 0) : Cell)

theorem c9_witness :
    (∀ c ∈ revW, c ∉ minesW) ∧ revW.card ≤ boardSize * boardSize - minesCount :=
  c9_mines_never_revealed minesW ((0, 0) : Cell) (by decide) (by decide) revW ∅ reachableW

theorem c4_witness :
    (handleClick ((0, 0) : Cell) (computeCounts minesW) minesW ∅ ∅).isSome = true ∧
    ∀ b (rev2 : Finset Cell) (rlog elog : List Cell),
      handleClick ((0, 0) : Cell) (computeCounts minesW) minesW ∅ ∅ =
        some (b, rev2, rlog, elog) → rlog.Nodup :=
  c4_flood_fill_terminates ((0, 0) : Cell) (computeCounts minesW) minesW ∅ ∅

/-- The state of the C1 counterexample is reachable: first click `(8,8)`,
flag `(0,2)`, flag `(0,6)`, click `(0,4)` — all legal moves of the loop. -/
theorem c1_cex_state_reachable : ReachableState c1mines ((8, 8) : Cell) c1rev c1flags := by
  have h0 : ReachableState c1mines ((8, 8) : Cell) c1rev0 ∅ := by
    obtain ⟨rev2, rl, el, heq, _⟩ :=
      handleClick_reveal_spec ((8, 8) : Cell) c1cnt c1mines ∅ ∅ (by decide) (by decide)
    have hw : rev2 = c1rev0 := by unfold c1rev0; rw [heq]
    exact hw ▸ ReachableState.init rev2 rl el heq
  have h1 : ReachableState c1mines ((8, 8) : Cell) c1rev0 {((0, 2) : Cell)} :=
    ReachableState.flagAdd c1rev0 ∅ ((0, 2) : Cell) h0 (by decide) (by decide)
  have h2 : ReachableState c1mines ((8, 8) : Cell) c1rev0 c1flags := by
    have hstep := ReachableState.flagAdd c1rev0 {((0, 2) : Cell)} ((0, 6) : Cell) h1
      (by decide) (by decide)
    have heqf : (insert ((0, 6) : Cell) {((0, 2) : Cell)} : Finset Cell) = c1flags := by
      decide
    exact heqf ▸ hstep
  obtain ⟨rev2, rl, el, heq, _⟩ :=
    handleClick_reveal_spec ((0, 4) : Cell) c1cnt c1mines c1rev0 c1flags
      (by decide) (by decide)
  have hw : rev2 = c1rev := by unfold c1rev; rw [heq]
  exact hw ▸ ReachableState.clickStep c1rev0 c1flags rev2 rl el ((0, 4) : Cell) h2
    (by decide) heq

/-- An overwrite-style accumulator loop: the embedding of a Python `for` loop
that assigns `heuristic_result` on every match and never breaks — a later
match overwrites an earlier one, and `init` survives only if nothing
matches. -/
def overwriteScan {α β : Type} (f : α → Option β) (init : Option β) (l : List α) :
    Option β :=
  l.foldl
    (fun acc x =>
      match f x with
      | some m => some m
      | none => acc) init

theorem overwriteScan_nil {α β : Type} (f : α → Option β) (init : Option β) :
    overwriteScan f init [] = init := rfl

theorem overwriteScan_cons {α β : Type} (f : α → Option β) (init : Option β)
    (a : α) (l : List α) :
    overwriteScan f init (a :: l) =
      overwriteScan f
        (match f a with
          | some m => some m
          | none => init) l := rfl

/-- Source `count_adjacent_flags(board_size, r, c, flags)`: the number of
neighbors of `(r, c)` that carry a flag (`flags` is always a set here, so the
`isinstance` guard of the source is always taken). -/
def countAdjacentFlags (flg : Finset Cell) (x : Cell) : ℕ :=
  (nbrs x).countP (fun n => decide (n ∈ flg))

/-- Source `ai_get_action` candidates: the row-major list of cells that are
neither revealed nor flagged. -/
def candidatesList (rev flg : Finset Cell) : List Cell :=
  allCellsList.filter (fun c => decide (c ∉ rev ∧ c ∉ flg))

/-- AI rule 1 tested at one cell: a revealed cell with count 1, no adjacent
flag, and exactly one unrevealed unflagged neighbor yields a flag action on
that neighbor (the source keeps the last assignment of `r, c` made in the
neighbor loop, hence `getLast?`). -/
def rule1Cell (rev flg : Finset Cell) (cnt : Cell → ℕ) (x : Cell) : Option Cell :=
  if x ∈ rev ∧ cnt x = 1 ∧ countAdjacentFlags flg x = 0 then
    let ns := (nbrs x).filter (fun n => decide (n ∉ rev ∧ n ∉ flg))
    if ns.length = 1 then ns.getLast? else none
  else none

/-- AI rule 1 over one row: the `break` leaves the inner column loop at the
first qualifying cell of the row. -/
def rule1Row (rev flg : Finset Cell) (cnt : Cell → ℕ) (cr : Fin boardSize) : Option Cell :=
  (List.finRange boardSize).findSome? fun cc => rule1Cell rev flg cnt (cr, cc)

/-- AI rule 1 over the board: the outer row loop has no `break`, so a later
row's match overwrites an earlier one. -/
def rule1 (rev flg : Finset Cell) (cnt : Cell → ℕ) : Option Cell :=
  overwriteScan (rule1Row rev flg cnt) none (List.finRange boardSize)

/-- AI rule 2 tested at one cell: a revealed cell with count 1 and exactly one
adjacent flag yields a click on its first unrevealed unflagged neighbor (the
inner `break` stops at the first one). -/
def rule2Cell (rev flg : Finset Cell) (cnt : Cell → ℕ) (x : Cell) : Option Cell :=
  if x ∈ rev ∧ cnt x = 1 ∧ countAdjacentFlags flg x = 1 then
    (nbrs x).find? (fun n => decide (n ∉ rev ∧ n ∉ flg))
  else none

/-- AI rule 2 over the board: no `break` at any level, so every qualifying
cell in row-major order overwrites the previous match. -/
def rule2 (rev flg : Finset Cell) (cnt : Cell → ℕ) : Option Cell :=
  overwriteScan (rule2Cell rev flg cnt) none allCellsList

/-- AI rule 3 tested at one cell: a revealed cell with count 2 and either no
adjacent flag with exactly two unrevealed unflagged neighbors, or one adjacent
flag with exactly one such neighbor, yields a flag action on the last such
neighbor. -/
def rule3Cell (rev flg : Finset Cell) (cnt : Cell → ℕ) (x : Cell) : Option Cell :=
  if x ∈ rev ∧ cnt x = 2 then
    if countAdjacentFlags flg x = 0 then
      let ns := (nbrs x).filter (fun n => decide (n ∉ rev ∧ n ∉ flg))
      if ns.length = 2 then ns.getLast? else none
    else if countAdjacentFlags flg x = 1 then
      let ns := (nbrs x).filter (fun n => decide (n ∉ rev ∧ n ∉ flg))
      if ns.length = 1 then ns.getLast? else none
    else none
  else none

/-- AI rule 3 over one row: inner `break` at the first qualifying cell. -/
def rule3Row (rev flg : Finset Cell) (cnt : Cell → ℕ) (cr : Fin boardSize) : Option Cell :=
  (List.finRange boardSize).findSome? fun cc => rule3Cell rev flg cnt (cr, cc)

/-- AI rule 3 over the board: later rows overwrite. -/
def rule3 (rev flg : Finset Cell) (cnt : Cell → ℕ) : Option Cell :=
  overwriteScan (rule3Row rev flg cnt) none (List.finRange boardSize)

/-- The three possible moves returned by an action provider. -/
inductive AIMove
  | quit
  | flagMove (c : Cell)
  | clickMove (c : Cell)
deriving DecidableEq

/-- Source `ai_get_action(board_size, revealed, flags, counts)`.  The random
fallback `random.choice(candidates)` is abstracted by the `choice` parameter;
any function that picks an element of a nonempty list is a possible behavior
of `random.choice`. -/
def aiGetAction (choice : List Cell → Cell) (rev flg : Finset Cell) (cnt : Cell → ℕ) :
    AIMove :=
  if (candidatesList rev flg).isEmpty then AIMove.quit
  else
    match rule1 rev flg cnt with
    | some m => AIMove.flagMove m
    | none =>
      match rule2 rev flg cnt with
      | some m => AIMove.clickMove m
      | none =>
        match rule3 rev flg cnt with
        | some m => AIMove.flagMove m
        | none => AIMove.clickMove (choice (candidatesList rev flg))

theorem mem_allCellsList : ∀ c : Cell, c ∈ allCellsList := by decide

theorem mem_candidatesList (rev flg : Finset Cell) (m : Cell) :
    m ∈ candidatesList rev flg ↔ m ∉ rev ∧ m ∉ flg := by
  unfold candidatesList
  rw [List.mem_filter]
  simp [mem_allCellsList]

theorem getLast?_mem {α : Type} : ∀ (l : List α) (a : α), l.getLast? = some a → a ∈ l := by
  intro l
  induction l with
  | nil => intro a h; simp at h
  | cons x t ih =>
    intro a h
    cases t with
    | nil =>
      simp only [List.getLast?_singleton, Option.some.injEq] at h
      subst h
      exact List.mem_cons_self _ _
    | cons y t2 =>
      rw [List.getLast?_cons_cons] at h
      exact List.mem_cons_of_mem _ (ih a h)

/-- Splitting characterization of `findSome?`: a result `b` comes from the
first element on which `f` fires. -/
theorem findSome?_split {α β : Type} (f : α → Option β) :
    ∀ (l : List α) (b : β),
      l.findSome? f = some b ↔
        ∃ l1 x l2, l = l1 ++ x :: l2 ∧ f x = some b ∧ ∀ y ∈ l1, f y = none := by
  intro l
  induction l with
  | nil =>
    intro b
    constructor
    · intro h; simp at h
    · rintro ⟨l1, x, l2, heq, _, _⟩
      exact absurd heq (by simp)
  | cons a t ih =>
    intro b
    rw [List.findSome?_cons]
    cases hfa : f a with
    | some c =>
      constructor
      · intro h
        exact ⟨[], a, t, rfl, by rw [hfa]; exact h, by simp⟩
      · rintro ⟨l1, x, l2, heq, hfx, hnone⟩
        cases l1 with
        | nil =>
          simp only [List.nil_append, List.cons.injEq] at heq
          rw [heq.1] at hfa
          rw [hfa] at hfx
          exact hfx
        | cons a2 l1b =>
          simp only [List.cons_append, List.cons.injEq] at heq
          have : f a = none := heq.1 ▸ hnone a2 (List.mem_cons_self _ _)
          rw [this] at hfa
          exact absurd hfa (by simp)
    | none =>
      rw [ih b]
      constructor
      · rintro ⟨l1, x, l2, heq, hfx, hnone⟩
        refine ⟨a :: l1, x, l2, by rw [heq, List.cons_append], hfx, ?_⟩
        intro y hy
        rcases List.mem_cons.mp hy with rfl | hy2
        · exact hfa
        · exact hnone y hy2
      · rintro ⟨l1, x, l2, heq, hfx, hnone⟩
        cases l1 with
        | nil =>
          simp only [List.nil_append, List.cons.injEq] at heq
          rw [heq.1] at hfa
          rw [hfa] at hfx
          exact absurd hfx (by simp)
        | cons a2 l1b =>
          simp only [List.cons_append, List.cons.injEq] at heq
          exact ⟨l1b, x, l2, heq.2, hfx, fun y hy => hnone y (List.mem_cons_of_mem _ hy)⟩

/-- Splitting characterization of `overwriteScan`: the result comes from the
last element on which `f` fires. -/
theorem overwriteScan_split {α β : Type} (f : α → Option β) :
    ∀ (l : List α) (init : Option β) (b : β),
      overwriteScan f init l = some b ↔
      ((∃ l1 x l2, l = l1 ++ x :: l2 ∧ f x = some b ∧ ∀ y ∈ l2, f y = none) ∨
        (init = some b ∧ ∀ y ∈ l, f y = none)) := by
  intro l
  induction l with
  | nil =>
    intro init b
    rw [overwriteScan_nil]
    simp only [List.not_mem_nil, false_implies, implies_true, and_true]
    constructor
    · intro h; exact Or.inr h
    · rintro (⟨l1, x, l2, heq, _, _⟩ | h)
      · exact absurd heq (by simp)
      · exact h
  | cons a t ih =>
    intro init b
    rw [overwriteScan_cons, ih]
    constructor
    · rintro (⟨l1, x, l2, heq, hfx, hnone⟩ | ⟨hinit, hall⟩)
      · exact Or.inl ⟨a :: l1, x, l2, by rw [heq, List.cons_append], hfx, hnone⟩
      · cases hfa : f a with
        | some c =>
          rw [hfa] at hinit
          exact Or.inl ⟨[], a, t, rfl, by rw [hfa]; exact hinit, hall⟩
        | none =>
          rw [hfa] at hinit
          refine Or.inr ⟨hinit, ?_⟩
          intro y hy
          rcases List.mem_cons.mp hy with rfl | hy2
          · exact hfa
          · exact hall y hy2
    · rintro (⟨l1, x, l2, heq, hfx, hnone⟩ | ⟨hinit, hall⟩)
      · cases l1 with
        | nil =>
          simp only [List.nil_append, List.cons.injEq] at heq
          refine Or.inr ⟨?_, heq.2 ▸ hnone⟩
          rw [← heq.1] at hfx
          rw [hfx]
        | cons a2 l1b =>
          simp only [List.cons_append, List.cons.injEq] at heq
          exact Or.inl ⟨l1b, x, l2, heq.2, hfx, hnone⟩
      · refine Or.inr ⟨?_, fun y hy => hall y (List.mem_cons_of_mem _ hy)⟩
        have hfa : f a = none := hall a (List.mem_cons_self _ _)
        rw [hfa]
        exact hinit

/-- For a list sorted by an asymmetric relation `R` and containing every
element on which `f` fires, the overwrite-fold returns exactly the match of
the `R`-greatest firing element. -/
theorem overwriteScan_last {α β : Type} (f : α → Option β) (R : α → α → Prop)
    (l : List α) (hp : l.Pairwise R) (hasym : ∀ x y, R x y → R y x → False)
    (hcomp : ∀ y, f y ≠ none → y ∈ l) (b : β) :
    overwriteScan f none l = some b ↔
    ∃ x, f x = some b ∧ ∀ y, R x y → f y = none := by
  rw [overwriteScan_split]
  constructor
  · rintro (⟨l1, x, l2, heq, hfx, hnone⟩ | ⟨hinit, _⟩)
    · refine ⟨x, hfx, ?_⟩
      intro y hxy
      by_contra hfy
      have hyl : y ∈ l := hcomp y hfy
      rw [heq] at hyl hp
      rcases List.mem_append.mp hyl with hy1 | hy2
      · have hyx : R y x :=
          (List.pairwise_append.mp hp).2.2 y hy1 x (List.mem_cons_self _ _)
        exact hasym x y hxy hyx
      · rcases List.mem_cons.mp hy2 with rfl | hy3
        · exact hasym y y hxy hxy
        · exact hfy (hnone y hy3)
    · exact absurd hinit (by simp)
  · rintro ⟨x, hfx, hmax⟩
    have hxl : x ∈ l := hcomp x (by rw [hfx]; simp)
    obtain ⟨l1, l2, heq⟩ := List.append_of_mem hxl
    refine Or.inl ⟨l1, x, l2, heq, hfx, ?_⟩
    intro y hy2
    apply hmax
    rw [heq] at hp
    exact (List.pairwise_cons.mp (List.pairwise_append.mp hp).2.1).1 y hy2

/-- For a sorted complete list, `findSome?` returns exactly the match of the
`R`-least firing element. -/
theorem findSome?_first {α β : Type} (f : α → Option β) (R : α → α → Prop)
    (l : List α) (hp : l.Pairwise R) (hasym : ∀ x y, R x y → R y x → False)
    (hcomp : ∀ y, f y ≠ none → y ∈ l) (b : β) :
    l.findSome? f = some b ↔
    ∃ x, f x = some b ∧ ∀ y, R y x → f y = none := by
  rw [findSome?_split]
  constructor
  · rintro ⟨l1, x, l2, heq, hfx, hnone⟩
    refine ⟨x, hfx, ?_⟩
    intro y hyx
    by_contra hfy
    have hyl : y ∈ l := hcomp y hfy
    rw [heq] at hyl hp
    rcases List.mem_append.mp hyl with hy1 | hy2
    · exact hfy (hnone y hy1)
    · rcases List.mem_cons.mp hy2 with rfl | hy3
      · exact hasym y y hyx hyx
      · have hxy : R x y :=
          (List.pairwise_cons.mp (List.pairwise_append.mp hp).2.1).1 y hy3
        exact hasym x y hxy hyx
  · rintro ⟨x, hfx, hmin⟩
    have hxl : x ∈ l := hcomp x (by rw [hfx]; simp)
    obtain ⟨l1, l2, heq⟩ := List.append_of_mem hxl
    refine ⟨l1, x, l2, heq, hfx, ?_⟩
    intro y hy1
    apply hmin
    rw [heq] at hp
    exact (List.pairwise_append.mp hp).2.2 y hy1 x (List.mem_cons_self _ _)

/-- Row-major strict order on cells. -/
def rowMajorLt (a b : Cell) : Prop := a.1 < b.1 ∨ (a.1 = b.1 ∧ a.2 < b.2)

instance : DecidableRel rowMajorLt := fun a b => by unfold rowMajorLt; infer_instance

theorem rowMajorLt_asymm : ∀ x y : Cell, rowMajorLt x y → rowMajorLt y x → False := by decide

theorem pairwise_rowMajor_allCells : allCellsList.Pairwise rowMajorLt := by decide

theorem pairwise_lt_finRange_board : (List.finRange boardSize).Pairwise (· < ·) := by decide

theorem rule1Cell_legal (rev flg : Finset Cell) (cnt : Cell → ℕ) (x m : Cell)
    (h : rule1Cell rev flg cnt x = some m) : m ∉ rev ∧ m ∉ flg := by
  simp only [rule1Cell] at h
  by_cases hcond : x ∈ rev ∧ cnt x = 1 ∧ countAdjacentFlags flg x = 0
  · rw [if_pos hcond] at h
    by_cases hlen : ((nbrs x).filter (fun n => decide (n ∉ rev ∧ n ∉ flg))).length = 1
    · rw [if_pos hlen] at h
      have hm := getLast?_mem _ _ h
      rw [List.mem_filter] at hm
      simpa using hm.2
    · rw [if_neg hlen] at h
      simp at h
  · rw [if_neg hcond] at h
    simp at h

theorem rule2Cell_legal (rev flg : Finset Cell) (cnt : Cell → ℕ) (x m : Cell)
    (h : rule2Cell rev flg cnt x = some m) : m ∉ rev ∧ m ∉ flg := by
  simp only [rule2Cell] at h
  by_cases hcond : x ∈ rev ∧ cnt x = 1 ∧ countAdjacentFlags flg x = 1
  · rw [if_pos hcond] at h
    have := List.find?_some h
    simpa using this
  · rw [if_neg hcond] at h
    simp at h

theorem rule3Cell_legal (rev flg : Finset Cell) (cnt : Cell → ℕ) (x m : Cell)
    (h : rule3Cell rev flg cnt x = some m) : m ∉ rev ∧ m ∉ flg := by
  simp only [rule3Cell] at h
  by_cases hcond : x ∈ rev ∧ cnt x = 2
  · rw [if_pos hcond] at h
    by_cases h0 : countAdjacentFlags flg x = 0
    · rw [if_pos h0] at h
      by_cases hlen : ((nbrs x).filter (fun n => decide (n ∉ rev ∧ n ∉ flg))).length = 2
      · rw [if_pos hlen] at h
        have hm := getLast?_mem _ _ h
        rw [List.mem_filter] at hm
        simpa using hm.2
      · rw [if_neg hlen] at h
        simp at h
    · rw [if_neg h0] at h
      by_cases h1 : countAdjacentFlags flg x = 1
      · rw [if_pos h1] at h
        by_cases hlen : ((nbrs x).filter (fun n => decide (n ∉ rev ∧ n ∉ flg))).length = 1
        · rw [if_pos hlen] at h
          have hm := getLast?_mem _ _ h
          rw [List.mem_filter] at hm
          simpa using hm.2
        · rw [if_neg hlen] at h
          simp at h
      · rw [if_neg h1] at h
        simp at h
  · rw [if_neg hcond] at h
    simp at h

theorem rule1_some_cell (rev flg : Finset Cell) (cnt : Cell → ℕ) (m : Cell)
    (h : rule1 rev flg cnt = some m) : ∃ x : Cell, rule1Cell rev flg cnt x = some m := by
  unfold rule1 at h
  rw [overwriteScan_split] at h
  rcases h with ⟨l1, cr, l2, heq, hfx, _⟩ | ⟨habs, _⟩
  · unfold rule1Row at hfx
    rw [findSome?_split] at hfx
    rcases hfx with ⟨l1b, cc, l2b, heq2, hfc, _⟩
    exact ⟨(cr, cc), hfc⟩
  · simp at habs

theorem rule2_some_cell (rev flg : Finset Cell) (cnt : Cell → ℕ) (m : Cell)
    (h : rule2 rev flg cnt = some m) : ∃ x : Cell, rule2Cell rev flg cnt x = some m := by
  unfold rule2 at h
  rw [overwriteScan_split] at h
  rcases h with ⟨l1, x, l2, heq, hfx, _⟩ | ⟨habs, _⟩
  · exact ⟨x, hfx⟩
  · simp at habs

theorem rule3_some_cell (rev flg : Finset Cell) (cnt : Cell → ℕ) (m : Cell)
    (h : rule3 rev flg cnt = some m) : ∃ x : Cell, rule3Cell rev flg cnt x = some m := by
  unfold rule3 at h
  rw [overwriteScan_split] at h
  rcases h with ⟨l1, cr, l2, heq, hfx, _⟩ | ⟨habs, _⟩
  · unfold rule3Row at hfx
    rw [findSome?_split] at hfx
    rcases hfx with ⟨l1b, cc, l2b, heq2, hfc, _⟩
    exact ⟨(cr, cc), hfc⟩
  · simp at habs

theorem rule1_legal (rev flg : Finset Cell) (cnt : Cell → ℕ) (m : Cell)
    (h : rule1 rev flg cnt = some m) : m ∉ rev ∧ m ∉ flg := by
  obtain ⟨x, hx⟩ := rule1_some_cell rev flg cnt m h
  exact rule1Cell_legal rev flg cnt x m hx

theorem rule2_legal (rev flg : Finset Cell) (cnt : Cell → ℕ) (m : Cell)
    (h : rule2 rev flg cnt = some m) : m ∉ rev ∧ m ∉ flg := by
  obtain ⟨x, hx⟩ := rule2_some_cell rev flg cnt m h
  exact rule2Cell_legal rev flg cnt x m hx

theorem rule3_legal (rev flg : Finset Cell) (cnt : Cell → ℕ) (m : Cell)
    (h : rule3 rev flg cnt = some m) : m ∉ rev ∧ m ∉ flg := by
  obtain ⟨x, hx⟩ := rule3_some_cell rev flg cnt m h
  exact rule3Cell_legal rev flg cnt x m hx

theorem candidates_not_isEmpty_of_mem {rev flg : Finset Cell} {m : Cell}
    (hm : m ∈ candidatesList rev flg) : (candidatesList rev flg).isEmpty = false := by
  cases hcand : candidatesList rev flg with
  | nil => rw [hcand] at hm; simp at hm
  | cons a t => simp

/-- Claim C3 (amended): the heuristic AI evaluates its rules in fixed priority
order — rule 1, then rule 2, then rule 3, then the random fallback — but
within a rule the scan does NOT stop at the first row-major match.  For rules
1 and 3 the emitted match is the first qualifying cell of the LAST row that
contains a qualifying cell (the `break` only leaves the inner column loop);
for rule 2 it is the LAST qualifying cell in row-major order (no `break` at
all); later matches overwrite earlier ones. -/
theorem c3_priority_and_scan_order (choice : List Cell → Cell) (rev flg : Finset Cell)
    (cnt : Cell → ℕ) :
    (∀ m : Cell, rule1 rev flg cnt = some m →
      aiGetAction choice rev flg cnt = AIMove.flagMove m) ∧
    (∀ m : Cell, rule1 rev flg cnt = none → rule2 rev flg cnt = some m →
      aiGetAction choice rev flg cnt = AIMove.clickMove m) ∧
    (∀ m : Cell, rule1 rev flg cnt = none → rule2 rev flg cnt = none →
      rule3 rev flg cnt = some m →
      aiGetAction choice rev flg cnt = AIMove.flagMove m) ∧
    (rule1 rev flg cnt = none → rule2 rev flg cnt = none → rule3 rev flg cnt = none →
      candidatesList rev flg ≠ [] →
      aiGetAction choice rev flg cnt = AIMove.clickMove (choice (candidatesList rev flg))) ∧
    (∀ m : Cell, rule1 rev flg cnt = some m ↔
      ∃ cr : Fin boardSize, rule1Row rev flg cnt cr = some m ∧
        ∀ cr2 : Fin boardSize, cr < cr2 → rule1Row rev flg cnt cr2 = none) ∧
    (∀ (cr : Fin boardSize) (m : Cell), rule1Row rev flg cnt cr = some m ↔
      ∃ cc : Fin boardSize, rule1Cell rev flg cnt (cr, cc) = some m ∧
        ∀ cc2 : Fin boardSize, cc2 < cc → rule1Cell rev flg cnt (cr, cc2) = none) ∧
    (∀ m : Cell, rule2 rev flg cnt = some m ↔
      ∃ x : Cell, rule2Cell rev flg cnt x = some m ∧
        ∀ y : Cell, rowMajorLt x y → rule2Cell rev flg cnt y = none) ∧
    (∀ m : Cell, rule3 rev flg cnt = some m ↔
      ∃ cr : Fin boardSize, rule3Row rev flg cnt cr = some m ∧
        ∀ cr2 : Fin boardSize, cr < cr2 → rule3Row rev flg cnt cr2 = none) ∧
    (∀ (cr : Fin boardSize) (m : Cell), rule3Row rev flg cnt cr = some m ↔
      ∃ cc : Fin boardSize, rule3Cell rev flg cnt (cr, cc) = some m ∧
        ∀ cc2 : Fin boardSize, cc2 < cc → rule3Cell rev flg cnt (cr, cc2) = none) := by
  have hasymF : ∀ x y : Fin boardSize, x < y → y < x → False :=
    fun x y h1 h2 => (lt_asymm h1) h2
  refine ⟨?_, ?_, ?_, ?_, ?_, ?_, ?_, ?_, ?_⟩
  · intro m h1
    have hm : m ∈ candidatesList rev flg :=
      (mem_candidatesList rev flg m).mpr (rule1_legal rev flg cnt m h1)
    simp [aiGetAction, candidates_not_isEmpty_of_mem hm, h1]
  · intro m h1 h2
    have hm : m ∈ candidatesList rev flg :=
      (mem_candidatesList rev flg m).mpr (rule2_legal rev flg cnt m h2)
    simp [aiGetAction, candidates_not_isEmpty_of_mem hm, h1, h2]
  · intro m h1 h2 h3
    have hm : m ∈ candidatesList rev flg :=
      (mem_candidatesList rev flg m).mpr (rule3_legal rev flg cnt m h3)
    simp [aiGetAction, candidates_not_isEmpty_of_mem hm, h1, h2, h3]
  · intro h1 h2 h3 hc
    have hne : (candidatesList rev flg).isEmpty = false := by
      cases hcand : candidatesList rev flg with
      | nil => exact absurd hcand hc
      | cons a t => simp
    simp [aiGetAction, hne, h1, h2, h3]
  · intro m
    unfold rule1
    exact overwriteScan_last (rule1Row rev flg cnt) (· < ·) _
      pairwise_lt_finRange_board hasymF (fun y _ => List.mem_finRange y) m
  · intro cr m
    unfold rule1Row
    exact findSome?_first (fun cc => rule1Cell rev flg cnt (cr, cc)) (· < ·) _
      pairwise_lt_finRange_board hasymF (fun y _ => List.mem_finRange y) m
  · intro m
    unfold rule2
    exact overwriteScan_last (rule2Cell rev flg cnt) rowMajorLt _
      pairwise_rowMajor_allCells rowMajorLt_asymm (fun y _ => mem_allCellsList y) m
  · intro m
    unfold rule3
    exact overwriteScan_last (rule3Row rev flg cnt) (· < ·) _
      pairwise_lt_finRange_board hasymF (fun y _ => List.mem_finRange y) m
  · intro cr m
    unfold rule3Row
    exact findSome?_first (fun cc => rule3Cell rev flg cnt (cr, cc)) (· < ·) _
      pairwise_lt_finRange_board hasymF (fun y _ => List.mem_finRange y) m

/-- Claim C10: the AI returns quit exactly when there is no unrevealed,
unflagged cell, and every click or flag it emits targets an in-bounds (by the
`Cell` type), unrevealed, unflagged cell. -/
theorem c10_ai_moves_legal (choice : List Cell → Cell)
    (hchoice : ∀ l : List Cell, l ≠ [] → choice l ∈ l)
    (rev flg : Finset Cell) (cnt : Cell → ℕ) :
    (aiGetAction choice rev flg cnt = AIMove.quit ↔ candidatesList rev flg = []) ∧
    (∀ m : Cell,
      aiGetAction choice rev flg cnt = AIMove.flagMove m ∨
        aiGetAction choice rev flg cnt = AIMove.clickMove m →
      m ∉ rev ∧ m ∉ flg) := by
  constructor
  · constructor
    · intro hq
      by_contra hne
      have hie : (candidatesList rev flg).isEmpty = false := by
        cases hcand : candidatesList rev flg with
        | nil => exact absurd hcand hne
        | cons a t => simp
      unfold aiGetAction at hq
      rw [if_neg (by simp [hie])] at hq
      cases h1 : rule1 rev flg cnt with
      | some m1 => simp only [h1] at hq; exact absurd hq (by simp)
      | none =>
        simp only [h1] at hq
        cases h2 : rule2 rev flg cnt with
        | some m2 => simp only [h2] at hq; exact absurd hq (by simp)
        | none =>
          simp only [h2] at hq
          cases h3 : rule3 rev flg cnt with
          | some m3 => simp only [h3] at hq; exact absurd hq (by simp)
          | none => simp only [h3] at hq; exact absurd hq (by simp)
    · intro hc
      simp [aiGetAction, hc]
  · intro m hm
    unfold aiGetAction at hm
    by_cases hie : (candidatesList rev flg).isEmpty = true
    · rw [if_pos hie] at hm
      rcases hm with h | h <;> simp at h
    · rw [if_neg hie] at hm
      cases h1 : rule1 rev flg cnt with
      | some m1 =>
        simp only [h1] at hm
        rcases hm with h | h
        · have hm1 : m1 = m := by simpa using h
          exact hm1 ▸ rule1_legal rev flg cnt m1 h1
        · simp at h
      | none =>
        simp only [h1] at hm
        cases h2 : rule2 rev flg cnt with
        | some m2 =>
          simp only [h2] at hm
          rcases hm with h | h
          · simp at h
          · have hm2 : m2 = m := by simpa using h
            exact hm2 ▸ rule2_legal rev flg cnt m2 h2
        | none =>
          simp only [h2] at hm
          cases h3 : rule3 rev flg cnt with
          | some m3 =>
            simp only [h3] at hm
            rcases hm with h | h
            · have hm3 : m3 = m := by simpa using h
              exact hm3 ▸ rule3_legal rev flg cnt m3 h3
            · simp at h
          | none =>
            simp only [h3] at hm
            rcases hm with h | h
            · simp at h
            · have hmm : choice (candidatesList rev flg) = m := by simpa using h
              have hnil : candidatesList rev flg ≠ [] := by
                intro hn
                rw [hn] at hie
                exact hie rfl
              have hmem := hchoice _ hnil
              rw [hmm, mem_candidatesList] at hmem
              exact hmem

/-- A concrete choice function standing in for `random.choice`: the head of
the candidate list. -/
def choiceHead : List Cell → Cell := fun l => l.headD ((0, 0) : Cell)

theorem choiceHead_mem : ∀ l : List Cell, l ≠ [] → choiceHead l ∈ l := by
  intro l h
  cases l with
  | nil => exact absurd rfl h
  | cons a t =>
    simp only [choiceHead, List.headD_cons]
    exact List.mem_cons_self _ _

theorem c10_witness :
    (aiGetAction choiceHead ∅ ∅ (computeCounts minesW) = AIMove.quit ↔
      candidatesList ∅ ∅ = []) ∧
    (∀ m : Cell,
      aiGetAction choiceHead ∅ ∅ (computeCounts minesW) = AIMove.flagMove m ∨
        aiGetAction choiceHead ∅ ∅ (computeCounts minesW) = AIMove.clickMove m →
      m ∉ (∅ : Finset Cell) ∧ m ∉ (∅ : Finset Cell)) :=
  c10_ai_moves_legal choiceHead choiceHead_mem ∅ ∅ (computeCounts minesW)

/-- Mines of the C3 counterexample: corner mines `(0,0)` and `(8,8)` each
surrounded by a revealed count-1 pattern, ten other mines far from both
revealed clusters. -/
def c3mines : List Cell :=
  [(0, 0), (8, 8), (0, 5), (0, 6), (0, 7), (0, 8), (1, 5), (1, 6), (1, 7), (1, 8),
   (2, 5), (2, 6)]

def c3cnt : Cell → ℕ := computeCounts c3mines

/-- Revealed cells of the C3 counterexample: the cells around `(0,0)` except
the mine itself, and likewise around `(8,8)`. -/
def c3rev : Finset Cell :=
  {((0, 1) : Cell), ((0, 2) : Cell), ((1, 0) : Cell), ((1, 1) : Cell), ((1, 2) : Cell),
   ((2, 0) : Cell), ((2, 1) : Cell), ((2, 2) : Cell), ((6, 6) : Cell), ((6, 7) : Cell),
   ((6, 8) : Cell), ((7, 6) : Cell), ((7, 7) : Cell), ((7, 8) : Cell), ((8, 6) : Cell),
   ((8, 7) : Cell)}

/-- Counterexample to claim C3 as stated: with no flags, the first qualifying
cell of rule 1 in row-major order is `(0,1)` (the earlier cell `(0,0)` does
not qualify), whose match would flag `(0,0)`; but the emitted action is a flag
on `(8,8)`, the match of the last qualifying row, because the rule-1 scan's
`break` only exits the inner column loop and later rows overwrite the
result. -/
theorem c3_counterexample :
    aiGetAction choiceHead c3rev ∅ c3cnt = AIMove.flagMove ((8, 8) : Cell) ∧
    rule1Cell c3rev ∅ c3cnt ((0, 0) : Cell) = none ∧
    rule1Cell c3rev ∅ c3cnt ((0, 1) : Cell) = some ((0, 0) : Cell) ∧
    ((8, 8) : Cell) ≠ ((0, 0) : Cell) := by
  refine ⟨by decide, by decide, by decide, by decide⟩

theorem c3_witness :
    aiGetAction choiceHead c3rev ∅ c3cnt = AIMove.flagMove ((8, 8) : Cell) :=
  (c3_priority_and_scan_order choiceHead c3rev ∅ c3cnt).1 ((8, 8) : Cell) (by decide)

end MinesweeperSolve
